import Mathlib

/-!
Shallow embedding of `jargon_tool.py` (rdubar/jargon): a DocBook-style
glossary ("Jargon File") extractor and query engine.  Markup elements are
modelled after lxml's element objects (qualified tag, optional text,
attribute list, ordered children, optional tail text); file I/O is modelled
by explicit state; Python exceptions are modelled with `Except`.
-/

namespace Jargon

/-- ANSI style marker for emphasis (cyan), `COLOR_EMPH` in the source. -/
def COLOR_EMPH : String := "\x1b[36m"

/-- ANSI style marker for references (magenta), `COLOR_REF` in the source. -/
def COLOR_REF : String := "\x1b[35m"

/-- ANSI style marker for titles (yellow), `COLOR_TITLE` in the source. -/
def COLOR_TITLE : String := "\x1b[33m"

/-- ANSI reset marker, `COLOR_RESET` in the source. -/
def COLOR_RESET : String := "\x1b[0m"

/-- A markup element as lxml represents it: fully qualified tag (namespaces
appear as a braced prefix), optional own text, attribute list, ordered
children, and optional tail text (text between this element and the next
sibling). -/
inductive Elem where
  | mk (tag : String) (text : Option String) (attrib : List (String × String))
       (children : List Elem) (tail : Option String)

/-- The element's qualified tag. -/
def Elem.tag : Elem → String
  | .mk t _ _ _ _ => t

/-- The element's own text (`node.text`), `none` when absent. -/
def Elem.text : Elem → Option String
  | .mk _ t _ _ _ => t

/-- The element's attribute list (`node.attrib`). -/
def Elem.attrib : Elem → List (String × String)
  | .mk _ _ a _ _ => a

/-- The element's ordered children. -/
def Elem.children : Elem → List Elem
  | .mk _ _ _ c _ => c

/-- The element's tail text (`node.tail`), `none` when absent. -/
def Elem.tail : Elem → Option String
  | .mk _ _ _ _ t => t

/-- Python truthiness of an optional string: `None` and `""` are falsy. -/
def truthy : Option String → Bool
  | none => false
  | some s => s ≠ ""

/-- The string carried by an optional text field, `""` when absent. -/
def strOf : Option String → String
  | none => ""
  | some s => s

/-- `"".join(parts)`: concatenation of a list of strings in order. -/
def strJoin (parts : List String) : String :=
  parts.foldr (fun a b => a ++ b) ""

/-- `_local_tag`: strip any XML namespace from a tag name
(`tag.rsplit("}", 1)[-1] if "}" in tag else tag`). -/
def localTag (tag : String) : String :=
  if '\x7d' ∈ tag.data then
    ⟨(tag.data.reverse.takeWhile (fun c => c ≠ '\x7d')).reverse⟩
  else tag

/-- `_style(text, color)`: wrap nonempty text in a color marker and the
reset marker; empty text is returned unchanged. -/
def style (text : String) (color : String) : String :=
  if text ≠ "" then color ++ text ++ COLOR_RESET else text

/-- The reference-type tags styled with `COLOR_REF` in `render_element`. -/
def refTags : List String := ["xref", "ulink", "link", "systemitem"]

mutual

/-- `render_element`: flatten an element's text content in document order,
styling emphasis and reference elements. -/
def renderElement : Elem → String
  | .mk tg tx _ children _ =>
      let tag := localTag tg
      let parts := (if truthy tx then [strOf tx] else []) ++ renderChildren children
      let combined := strJoin parts
      if tag = "emphasis" then style combined COLOR_EMPH
      else if refTags.contains tag then style combined COLOR_REF
      else combined

/-- The loop body of `render_element`: each child's rendered output followed
by its tail text when present. -/
def renderChildren : List Elem → List String
  | [] => []
  | c :: cs =>
      ([renderElement c] ++ (if truthy c.tail then [strOf c.tail] else []))
        ++ renderChildren cs

end

mutual

/-- Specification-side flattening: the concatenation of the element's own
text, each child's flattened output, and each child's tail text, in document
order, with absent text contributing the empty string. -/
def flattenText : Elem → String
  | .mk _ tx _ children _ => strOf tx ++ flattenChildren children

/-- Flattening of a child list: each child's flattened output followed by
its tail text. -/
def flattenChildren : List Elem → String
  | [] => ""
  | c :: cs => flattenText c ++ strOf c.tail ++ flattenChildren cs

end

mutual

/-- No text or tail fragment in the subtree contains the ANSI escape
character (so the only escape sequences in rendered output are the style
markers inserted by the renderer). -/
def noEsc : Elem → Bool
  | .mk _ tx _ children tl =>
      !decide ('\x1b' ∈ (strOf tx).data)
        && !decide ('\x1b' ∈ (strOf tl).data)
        && noEscList children

/-- `noEsc` over a child list. -/
def noEscList : List Elem → Bool
  | [] => true
  | c :: cs => noEsc c && noEscList cs

end

/-- Strip ANSI escape sequences from a character list; the flag records
whether we are inside an escape sequence (which ends at `'m'`). -/
def stripAnsiList : List Char → Bool → List Char
  | [], _ => []
  | c :: cs, true => if c = 'm' then stripAnsiList cs false else stripAnsiList cs true
  | c :: cs, false =>
      if c = '\x1b' then stripAnsiList cs true else c :: stripAnsiList cs false

/-- Strip ANSI escape sequences (the style markers) from a string. -/
def stripAnsi (s : String) : String :=
  ⟨stripAnsiList s.data false⟩

/-! ### Python string primitives used by the tool -/

/-- Python's default whitespace class for `str.split`/`str.strip`
(ASCII space, tab, newline, carriage return, vertical tab, form feed). -/
def pyIsSpace (c : Char) : Bool :=
  c = ' ' || c = '\t' || c = '\n' || c = '\r' || c = '\x0b' || c = '\x0c'

/-- `str.strip()`: remove leading and trailing whitespace. -/
def pyStrip (s : String) : String :=
  ⟨((s.data.dropWhile pyIsSpace).reverse.dropWhile pyIsSpace).reverse⟩

/-- ASCII lowering of one character (`str.lower` restricted to the ASCII
range; case folding of other characters is the library collaborator). -/
def pyLowerChar (c : Char) : Char :=
  if 'A' ≤ c && c ≤ 'Z' then Char.ofNat (c.toNat + 32) else c

/-- `str.lower()`. -/
def pyLower (s : String) : String :=
  ⟨s.data.map pyLowerChar⟩

/-- Python's `needle in haystack` on strings: substring containment. -/
def pyIn (needle haystack : String) : Bool :=
  decide (needle.data <:+: haystack.data)

/-- Character scan implementing `str.split()` with no separator: `acc`
holds the current word, reversed. -/
def pySplitAux : List Char → List Char → List (List Char)
  | [], acc => if acc.isEmpty then [] else [acc.reverse]
  | c :: cs, acc =>
      if pyIsSpace c then
        if acc.isEmpty then pySplitAux cs [] else acc.reverse :: pySplitAux cs []
      else pySplitAux cs (c :: acc)

/-- `str.split()` with no separator: the maximal runs of non-whitespace
characters, with leading/trailing/repeated whitespace discarded. -/
def pySplit (l : List Char) : List (List Char) :=
  pySplitAux l []

/-- `" ".join(words)` on character lists. -/
def joinSp : List (List Char) → List Char
  | [] => []
  | [w] => w
  | w :: ws => w ++ ' ' :: joinSp ws

/-- `" ".join(s.split())`: the whitespace normalization used by
`render_paragraph`. -/
def pyNormalizeWs (s : String) : String :=
  ⟨joinSp (pySplit s.data)⟩

/-! ### Element lookup (lxml `find`/`findall`/`.get`) -/

/-- `node.get(key, default)`: attribute lookup with a default. -/
def attrGet (node : Elem) (key dflt : String) : String :=
  match node.attrib.find? (fun kv => kv.1 = key) with
  | some kv => kv.2
  | none => dflt

/-- `node.attrib.get(key)`: attribute lookup returning `None` when absent. -/
def attrFind (node : Elem) (key : String) : Option String :=
  (node.attrib.find? (fun kv => kv.1 = key)).map (fun kv => kv.2)

/-- `node.find(tag)`: first direct child whose qualified tag equals `tag`
exactly (no namespace stripping). -/
def findChild (node : Elem) (tag : String) : Option Elem :=
  node.children.find? (fun c => c.tag = tag)

/-- `node.findall(tag)`: all direct children whose qualified tag equals
`tag` exactly, in document order. -/
def findAll (node : Elem) (tag : String) : List Elem :=
  node.children.filter (fun c => c.tag = tag)

mutual

/-- All proper descendants of an element, in document order (lxml's
`.//` axis). -/
def descendants : Elem → List Elem
  | .mk _ _ _ children _ => descList children

/-- Descendant traversal of a child list: each child, then its own
descendants, then the following siblings. -/
def descList : List Elem → List Elem
  | [] => []
  | c :: cs => c :: (descendants c ++ descList cs)

end

/-- `root.findall(".//glossentry")`. -/
def findAllDesc (root : Elem) (tag : String) : List Elem :=
  (descendants root).filter (fun c => c.tag = tag)

/-! ### Data model and extraction -/

instance {ε α : Type} [DecidableEq ε] [DecidableEq α] : DecidableEq (Except ε α) :=
  fun a b =>
    match a, b with
    | .ok x, .ok y =>
        if h : x = y then isTrue (by rw [h]) else isFalse (by intro hh; cases hh; exact h rfl)
    | .error x, .error y =>
        if h : x = y then isTrue (by rw [h]) else isFalse (by intro hh; cases hh; exact h rfl)
    | .ok _, .error _ => isFalse (by intro hh; cases hh)
    | .error _, .ok _ => isFalse (by intro hh; cases hh)

/-- Python exceptions raised (or raisable) by the tool. -/
inductive PyErr where
  | attributeError
  | keyError (msg : String)
  | indexError
  | fileNotFound (msg : String)
deriving DecidableEq, Repr

/-- One sense of an entry: rendered definition text plus the hoisted
pronunciation and grammar annotations. -/
structure Sense where
  definition : String
  pronunciation : Option String
  grammar : Option String
deriving DecidableEq, Repr

/-- One glossary entry: source identifier, display headword, ordered senses. -/
structure Entry where
  id : String
  term : String
  senses : List Sense
deriving DecidableEq, Repr

/-- `render_paragraph` before whitespace normalization: the paragraph's own
text and each child's rendered output and tail, concatenated. -/
def renderCombined (paragraph : Elem) : String :=
  strJoin ((if truthy paragraph.text then [strOf paragraph.text] else [])
    ++ renderChildren paragraph.children)

/-- `render_paragraph`: render a `<para>` to styled plain text and collapse
whitespace runs (`" ".join(combined.split())`). -/
def renderParagraph (paragraph : Elem) : String :=
  pyNormalizeWs (renderCombined paragraph)

/-- `emph.text.strip() if emph.text else None`: trimmed text of an emphasis
annotation, `None` when the text is absent or empty. -/
def stripOptText (text : Option String) : Option String :=
  if truthy text then some (pyStrip (strOf text)) else none

/-- The `abbrev` scan of `parse_glossentry`: fold over the emphasis
children, the last `role="pronunciation"` / `role="grammar"` match winning. -/
def scanAbbrev (abbrevEl : Elem) : Option String × Option String :=
  (findAll abbrevEl "emphasis").foldl
    (fun pg emph =>
      let role := attrFind emph "role"
      let pg := if role = some "pronunciation" then (stripOptText emph.text, pg.2) else pg
      let pg := if role = some "grammar" then (pg.1, stripOptText emph.text) else pg
      pg)
    (none, none)

/-- The definition text built for one `<glossdef>`: its `<para>` children
rendered, empty renders discarded, the rest joined with newlines. -/
def glossdefDefinition (glossdef : Elem) : String :=
  let text_parts := (findAll glossdef "para").foldl
    (fun acc paragraph =>
      let rendered := renderParagraph paragraph
      if rendered ≠ "" then acc ++ [rendered] else acc)
    []
  if text_parts ≠ [] then String.intercalate "\n" text_parts else ""

/-- `parse_glossentry`: convert one `<glossentry>` element into an `Entry`.
The headword line `term_el.text.strip() if term_el is not None else entry_id`
raises `AttributeError` when the `<glossterm>` child exists but its text is
`None`. -/
def parseGlossentry (glossentry : Elem) : Except PyErr Entry :=
  let entry_id := attrGet glossentry "id" ""
  let termE : Except PyErr String :=
    match findChild glossentry "glossterm" with
    | some term_el =>
        match term_el.text with
        | some t => Except.ok (pyStrip t)
        | none => Except.error PyErr.attributeError
    | none => Except.ok entry_id
  match termE with
  | .error e => .error e
  | .ok term =>
      let pg :=
        match findChild glossentry "abbrev" with
        | some abbrevEl => scanAbbrev abbrevEl
        | none => (none, none)
      let senses := (findAll glossentry "glossdef").foldl
        (fun acc glossdef =>
          acc ++ [{ definition := glossdefDefinition glossdef,
                    pronunciation := pg.1, grammar := pg.2 : Sense }])
        []
      .ok { id := entry_id, term := term, senses := senses }

/-- The entry loop of `xml_to_json`: parse every `glossentry` descendant of
the root, in document order; a raised exception aborts the whole loop. -/
def xmlToJsonEntries (root : Elem) : Except PyErr (List Entry) :=
  (findAllDesc root "glossentry").mapM parseGlossentry

/-! ### Query engine (`choose_entry` and the command pipeline) -/

/-- `random.choice(seq)` with an index oracle `r`: raises `IndexError` on an
empty sequence, otherwise returns the element at `r mod len`; every index is
reachable for some oracle value, modelling uniform choice. -/
def randomChoice {α : Type} : List α → Nat → Except PyErr α
  | [], _ => Except.error PyErr.indexError
  | x :: xs, r => Except.ok ((x :: xs).getD (r % (x :: xs).length) x)

/-- The exact-match tier of `choose_entry`: entries whose lowered term or id
equals the (already lowered) query. -/
def exactMatches (entries : List Entry) (query : String) : List Entry :=
  entries.filter (fun e => pyLower e.term = query || pyLower e.id = query)

/-- The substring-match tier of `choose_entry`: entries whose lowered term
or id contains the (already lowered) query. -/
def substrMatches (entries : List Entry) (query : String) : List Entry :=
  entries.filter (fun e => pyIn query (pyLower e.term) || pyIn query (pyLower e.id))

/-- `choose_entry`: pick an entry by term/id (case-insensitive), or at
random when no (truthy) query was supplied. -/
def chooseEntry (entries : List Entry) (term : Option String) (r : Nat) :
    Except PyErr Entry :=
  if !truthy term then randomChoice entries r
  else
    let query := pyLower (strOf term)
    let exact := exactMatches entries query
    if exact ≠ [] then randomChoice exact r
    else
      let found := substrMatches entries query
      if found ≠ [] then randomChoice found r
      else Except.error (PyErr.keyError ("No entry found for: " ++ strOf term))

/-- The filesystem state the tool touches: the source document (when the
XML path exists) and the cache contents (when the JSON path exists). -/
structure Fs where
  xml : Option Elem
  json : Option (List Entry)

/-- `ensure_json`: regenerate the cache from the source when forced or
missing (raising `FileNotFoundError` when the source is absent), then fail
if the cache still does not exist. -/
def ensureJson (fs : Fs) (force : Bool) : Except PyErr Fs :=
  let step : Except PyErr Fs :=
    if force || fs.json.isNone then
      match fs.xml with
      | none => Except.error (PyErr.fileNotFound "XML source not found")
      | some root =>
          match xmlToJsonEntries root with
          | .error e => .error e
          | .ok entries => .ok { fs with json := some entries }
    else .ok fs
  match step with
  | .error e => .error e
  | .ok fs' =>
      if fs'.json.isNone then Except.error (PyErr.fileNotFound "Unable to build JSON")
      else .ok fs'

/-- `show_entry`: load the cache, choose an entry, and display it;
`display_entry` with `show_all=False` draws one random sense, which raises
`IndexError` when the chosen entry has no senses. -/
def showEntry (fs : Fs) (showAll : Bool) (term : Option String) (r rs : Nat) :
    Except PyErr Entry :=
  match fs.json with
  | none => Except.error (PyErr.fileNotFound "JSON data not found")
  | some entries =>
      match chooseEntry entries term r with
      | .error e => .error e
      | .ok entry =>
          if showAll then .ok entry
          else
            match randomChoice entry.senses rs with
            | .error e => .error e
            | .ok _ => .ok entry

/-- Outcome of one `cmd_random` invocation. -/
inductive RunResult where
  | ok (entry : Entry)
  | exitOne (msg : String)
  | uncaught (err : PyErr)
deriving DecidableEq, Repr

/-- `cmd_random`: materialize the cache, then show an entry; a `KeyError`
from the lookup is caught, printed to stderr and turned into `sys.exit(1)`
(`exitOne`); any other exception propagates (`uncaught`). -/
def cmdRandom (fs : Fs) (rebuild showAll : Bool) (term : Option String)
    (r rs : Nat) : RunResult :=
  match ensureJson fs rebuild with
  | .error e => .uncaught e
  | .ok fs' =>
      match showEntry fs' showAll term r rs with
      | .ok entry => .ok entry
      | .error (.keyError msg) => .exitOne msg
      | .error e => .uncaught e

/-- The positional-argument handling of `main`: join the words with spaces,
strip, and treat an empty result as no query. -/
def mainTerm (words : List String) : Option String :=
  let joined := pyStrip (String.intercalate " " words)
  if joined ≠ "" then some joined else none

/-! ### JSON cache codec (value level; the text codec is the standard
library collaborator) -/

/-- JSON values, as produced and consumed by the standard codec. -/
inductive Json where
  | null
  | str (s : String)
  | arr (items : List Json)
  | obj (fields : List (String × Json))

/-- Encode an optional string as a JSON string or `null`. -/
def optToJson : Option String → Json
  | none => Json.null
  | some s => Json.str s

/-- The JSON object written for one sense. -/
def senseToJson (s : Sense) : Json :=
  .obj [("definition", .str s.definition),
        ("pronunciation", optToJson s.pronunciation),
        ("grammar", optToJson s.grammar)]

/-- The JSON object written for one entry. -/
def entryToJson (e : Entry) : Json :=
  .obj [("id", .str e.id), ("term", .str e.term),
        ("senses", .arr (e.senses.map senseToJson))]

/-- The cache artifact: the JSON array of all entries, in order. -/
def entriesToJson (entries : List Entry) : Json :=
  .arr (entries.map entryToJson)

/-- Field lookup in a decoded JSON object. -/
def objGet (fields : List (String × Json)) (key : String) : Option Json :=
  (fields.find? (fun kv => kv.1 = key)).map (fun kv => kv.2)

/-- Read a JSON string. -/
def jsonToStr : Json → Option String
  | .str s => some s
  | _ => none

/-- Read a JSON string-or-null. -/
def jsonToOptStr : Json → Option (Option String)
  | .null => some none
  | .str s => some (some s)
  | _ => none

/-- Decode every element of a JSON array, failing when any element fails. -/
def decodeAll {α : Type} (f : Json → Option α) : List Json → Option (List α)
  | [] => some []
  | j :: js =>
      match f j, decodeAll f js with
      | some x, some xs => some (x :: xs)
      | _, _ => none

/-- Decode one sense object from the cache. -/
def jsonToSense : Json → Option Sense
  | .obj fields => do
      let d ← objGet fields "definition" >>= jsonToStr
      let p ← objGet fields "pronunciation" >>= jsonToOptStr
      let g ← objGet fields "grammar" >>= jsonToOptStr
      pure { definition := d, pronunciation := p, grammar := g }
  | _ => none

/-- Decode one entry object from the cache. -/
def jsonToEntry : Json → Option Entry
  | .obj fields => do
      let i ← objGet fields "id" >>= jsonToStr
      let t ← objGet fields "term" >>= jsonToStr
      let senses ←
        match objGet fields "senses" with
        | some (Json.arr items) => decodeAll jsonToSense items
        | _ => none
      pure { id := i, term := t, senses := senses }
  | _ => none

/-- Decode the whole cache artifact. -/
def jsonToEntries : Json → Option (List Entry)
  | .arr items => decodeAll jsonToEntry items
  | _ => none

/-! ### Helper lemmas -/

theorem randomChoice_mem {α : Type} (l : List α) (r : Nat) (h : l ≠ []) :
    ∃ e, randomChoice l r = Except.ok e ∧ e ∈ l := by
  match l with
  | [] => exact absurd rfl h
  | x :: xs =>
      refine ⟨(x :: xs).getD (r % (x :: xs).length) x, rfl, ?_⟩
      have hlt : r % (x :: xs).length < (x :: xs).length :=
        Nat.mod_lt _ (by simp)
      simp only [List.getD_eq_getElem?_getD, List.getElem?_eq_getElem hlt,
        Option.getD_some]
      exact List.getElem_mem hlt

theorem randomChoice_not_keyError {α : Type} (l : List α) (r : Nat) (msg : String) :
    randomChoice l r ≠ Except.error (PyErr.keyError msg) := by
  match l with
  | [] => simp [randomChoice]
  | x :: xs => simp [randomChoice]

theorem truthy_some_ne {s : String} (h : s ≠ "") : truthy (some s) = true := by
  simp [truthy, h]

theorem foldl_append_map {α β : Type} (f : α → β) (l : List α) (acc : List β) :
    l.foldl (fun a x => a ++ [f x]) acc = acc ++ l.map f := by
  induction l generalizing acc with
  | nil => simp
  | cons x xs ih => simp [ih]

/-- The result of `_local_tag` never contains a closing brace. -/
theorem localTag_no_brace (t : String) : '\x7d' ∉ (localTag t).data := by
  rw [localTag]
  by_cases h : '\x7d' ∈ t.data
  · rw [if_pos h]
    intro hm
    rw [List.mem_reverse] at hm
    have hp := List.mem_takeWhile_imp hm
    simp at hp
  · rw [if_neg h]
    exact h

/-- `_local_tag` is the identity on tags without a closing brace. -/
theorem localTag_of_no_brace {t : String} (h : '\x7d' ∉ t.data) : localTag t = t := by
  rw [localTag, if_neg h]

/-- `_local_tag` is idempotent. -/
theorem localTag_idem (t : String) : localTag (localTag t) = localTag t :=
  localTag_of_no_brace (localTag_no_brace t)

/-! ### C5 — exact-match tier priority -/

/-- C5: for every record set and every non-empty query, `choose_entry`
returns an entry of the exact-match tier whenever that tier is non-empty,
for every value of the random oracle; the substring tier is never consulted
in that case. -/
theorem C5_exact_tier_priority (entries : List Entry) (q : String) (r : Nat)
    (hq : q ≠ "") (hx : exactMatches entries (pyLower q) ≠ []) :
    ∃ e, chooseEntry entries (some q) r = Except.ok e ∧
      e ∈ exactMatches entries (pyLower q) := by
  have ht := truthy_some_ne hq
  obtain ⟨e, he, hmem⟩ := randomChoice_mem (exactMatches entries (pyLower q)) r hx
  refine ⟨e, ?_, hmem⟩
  simp [chooseEntry, ht, strOf, hx, he]

/-- C5 witness: with entries `{term := "foo"}` and `{term := "foobar"}`,
querying `"foo"` returns the first for arbitrary oracle values. -/
theorem C5_exact_tier_priority_witness :
    ("foo" : String) ≠ "" ∧
    (∃ e, chooseEntry
        [{ id := "e1", term := "foo", senses := [] },
         { id := "e2", term := "foobar", senses := [] }] (some "foo") 7 = Except.ok e ∧
      e ∈ exactMatches
        [{ id := "e1", term := "foo", senses := [] },
         { id := "e2", term := "foobar", senses := [] }] (pyLower "foo")) := by
  constructor
  · decide
  · exact C5_exact_tier_priority
      [{ id := "e1", term := "foo", senses := [] },
       { id := "e2", term := "foobar", senses := [] }] "foo" 7
      (by decide) (by decide)

/-! ### C8 — case-insensitive matching -/

/-- C8: query matching is case-insensitive — two queries with the same
lowering (in particular any case variants of one another) produce identical
exact-match and substring-match candidate sets. -/
theorem C8_case_insensitive (entries : List Entry) (q1 q2 : String)
    (h : pyLower q1 = pyLower q2) :
    exactMatches entries (pyLower q1) = exactMatches entries (pyLower q2) ∧
    substrMatches entries (pyLower q1) = substrMatches entries (pyLower q2) := by
  rw [h]
  exact ⟨rfl, rfl⟩

/-- C8 witness: `"Foo"` and `"FOO"` yield identical candidate sets over a
concrete record set. -/
theorem C8_case_insensitive_witness :
    pyLower "Foo" = pyLower "FOO" ∧
    (exactMatches [{ id := "x", term := "foo", senses := [] }] (pyLower "Foo") =
       exactMatches [{ id := "x", term := "foo", senses := [] }] (pyLower "FOO") ∧
     substrMatches [{ id := "x", term := "foo", senses := [] }] (pyLower "Foo") =
       substrMatches [{ id := "x", term := "foo", senses := [] }] (pyLower "FOO")) :=
  ⟨by decide,
   C8_case_insensitive [{ id := "x", term := "foo", senses := [] }] "Foo" "FOO" (by decide)⟩

/-! ### C10 — the empty-string query is the no-query case -/

/-- C10: `choose_entry` treats an empty-string query exactly like an absent
query — a uniformly random entry from the full set, never the matching
tiers — and `main` turns positional words that join and strip to the empty
string into the absent query. -/
theorem C10_empty_query_random (entries : List Entry) (r : Nat) (words : List String) :
    chooseEntry entries (some "") r = chooseEntry entries none r ∧
    (entries ≠ [] →
      ∃ e, chooseEntry entries none r = Except.ok e ∧ e ∈ entries) ∧
    (pyStrip (String.intercalate " " words) = "" → mainTerm words = none) := by
  refine ⟨by simp [chooseEntry, truthy], fun h => ?_, fun h => ?_⟩
  · obtain ⟨e, he, hmem⟩ := randomChoice_mem entries r h
    exact ⟨e, by simp [chooseEntry, truthy, he], hmem⟩
  · simp [mainTerm, h]

/-- C10 witness: over a concrete one-entry record set the empty-string
query behaves like no query, and whitespace-only positional words give the
absent query. -/
theorem C10_empty_query_random_witness :
    (chooseEntry [{ id := "x", term := "t", senses := [] }] (some "") 0 =
       chooseEntry [{ id := "x", term := "t", senses := [] }] none 0) ∧
    (∃ e, chooseEntry [{ id := "x", term := "t", senses := [] }] none 0 = Except.ok e ∧
       e ∈ [{ id := "x", term := "t", senses := [] : Entry }]) ∧
    mainTerm ["  ", ""] = none := by
  obtain ⟨h1, h2, h3⟩ :=
    C10_empty_query_random [{ id := "x", term := "t", senses := [] }] 0 ["  ", ""]
  exact ⟨h1, h2 (by decide), h3 (by decide)⟩

/-! ### C2 — the at-least-one-sense invariant fails for entries with no
definition group -/

/-- A well-formed glossary entry carrying a headword but no `<glossdef>`
child. -/
def entryNoGlossdef : Elem :=
  .mk "glossentry" none [("id", "x")]
    [.mk "glossterm" (some "t") [] [] none] none

/-- C2 counterexample: a glossary-entry node with zero definition-group
children extracts to an Entry whose `senses` list is empty, violating
`len(senses) >= 1`. -/
theorem C2_counterexample :
    parseGlossentry entryNoGlossdef =
      Except.ok { id := "x", term := "t", senses := [] } ∧
    ({ id := "x", term := "t", senses := [] : Entry }).senses.length = 0 := by
  exact ⟨by decide, by decide⟩

/-- C2 amended: every extracted Entry has exactly one Sense per
definition-group child of its glossary-entry node, in document order (all
senses sharing the hoisted pronunciation/grammar pair); in particular
`len(senses) >= 1` holds exactly when the entry has at least one
definition-group child, and an entry with none has an empty `senses` list. -/
theorem C2_amended (ge : Elem) (ent : Entry)
    (h : parseGlossentry ge = Except.ok ent) :
    (∃ p g, ent.senses = (findAll ge "glossdef").map
        (fun gd => { definition := glossdefDefinition gd,
                     pronunciation := p, grammar := g })) ∧
    ent.senses.length = (findAll ge "glossdef").length ∧
    (findAll ge "glossdef" ≠ [] → 1 ≤ ent.senses.length) := by
  have main : ∀ term,
      ent = { id := attrGet ge "id" "",
              term := term,
              senses := (findAll ge "glossdef").foldl
                (fun acc gd =>
                  acc ++ [{ definition := glossdefDefinition gd,
                            pronunciation :=
                              (match findChild ge "abbrev" with
                               | some abbrevEl => scanAbbrev abbrevEl
                               | none => (none, none)).1,
                            grammar :=
                              (match findChild ge "abbrev" with
                               | some abbrevEl => scanAbbrev abbrevEl
                               | none => (none, none)).2 : Sense }])
                [] } →
      (∃ p g, ent.senses = (findAll ge "glossdef").map
          (fun gd => { definition := glossdefDefinition gd,
                       pronunciation := p, grammar := g })) ∧
      ent.senses.length = (findAll ge "glossdef").length ∧
      (findAll ge "glossdef" ≠ [] → 1 ≤ ent.senses.length) := by
    intro term hent
    subst hent
    simp only [foldl_append_map, List.nil_append, List.length_map]
    exact ⟨⟨_, _, rfl⟩, trivial, fun hne => List.length_pos.mpr hne⟩
  cases hgt : findChild ge "glossterm" with
  | none =>
      simp only [parseGlossentry, hgt, Except.ok.injEq] at h
      exact main _ h.symm
  | some te =>
      cases hte : te.text with
      | none => simp [parseGlossentry, hgt, hte] at h
      | some t =>
          simp only [parseGlossentry, hgt, hte, Except.ok.injEq] at h
          exact main _ h.symm

/-- C2 witness: a concrete entry with one definition group satisfies the
amended statement. -/
theorem C2_amended_witness :
    (∃ p g,
      [{ definition := "d", pronunciation := none, grammar := none : Sense }] =
        (findAll (.mk "glossentry" none [("id", "w")]
            [.mk "glossterm" (some "w") [] [] none,
             .mk "glossdef" none [] [.mk "para" (some "d") [] [] none] none] none)
          "glossdef").map
          (fun gd => { definition := glossdefDefinition gd,
                       pronunciation := p, grammar := g })) ∧
    ([{ definition := "d", pronunciation := none, grammar := none : Sense }]).length =
      ((findAll (.mk "glossentry" none [("id", "w")]
          [.mk "glossterm" (some "w") [] [] none,
           .mk "glossdef" none [] [.mk "para" (some "d") [] [] none] none] none)
        "glossdef")).length ∧
    (findAll (.mk "glossentry" none [("id", "w")]
        [.mk "glossterm" (some "w") [] [] none,
         .mk "glossdef" none [] [.mk "para" (some "d") [] [] none] none] none)
      "glossdef" ≠ [] →
      1 ≤ ([{ definition := "d", pronunciation := none, grammar := none : Sense }]).length) := by
  exact C2_amended
    (.mk "glossentry" none [("id", "w")]
      [.mk "glossterm" (some "w") [] [] none,
       .mk "glossdef" none [] [.mk "para" (some "d") [] [] none] none] none)
    { id := "w", term := "w",
      senses := [{ definition := "d", pronunciation := none, grammar := none }] }
    (by decide)

/-! ### C3 — the headword fallback crashes when the headword node has no
text -/

/-- A glossary entry whose `<glossterm>` child exists but has no text. -/
def entryTermNoText : Elem :=
  .mk "glossentry" none [("id", "foo")]
    [.mk "glossterm" none [] [] none] none

/-- A glossary entry with no `<glossterm>` child at all. -/
def entryNoTerm : Elem :=
  .mk "glossentry" none [("id", "foo")] [] none

/-- C3 (code bug): when the headword node is absent the extractor does fall
back to the identifier, but when the headword node is present with absent
text, `term_el.text.strip()` raises `AttributeError` (`None.strip()`),
aborting the whole extraction instead of falling back to the identifier. -/
theorem C3_headword_text_crash :
    parseGlossentry entryTermNoText = Except.error PyErr.attributeError ∧
    parseGlossentry entryNoTerm =
      Except.ok { id := "foo", term := "foo", senses := [] } ∧
    xmlToJsonEntries (.mk "glossary" none [] [entryTermNoText] none) =
      Except.error PyErr.attributeError := by
  exact ⟨by decide, by decide, by decide⟩

/-! ### C4 — namespace stripping happens only in the renderer -/

/-- A document whose single glossary entry carries no namespace prefix. -/
def plainDoc : Elem :=
  .mk "glossary" none []
    [.mk "glossentry" none [("id", "a")] [] none] none

/-- The same document with the namespace prefix `\x7bu\x7d` on the
glossary-entry tag. -/
def nsDoc : Elem :=
  .mk "glossary" none []
    [.mk "\x7bu\x7dglossentry" none [("id", "a")] [] none] none

/-- C4 counterexample: an element whose namespace-stripped tag is
`glossentry` is not treated like an unprefixed one — extraction finds the
plain entry but not the namespaced one. -/
theorem C4_counterexample :
    localTag "\x7bu\x7dglossentry" = "glossentry" ∧
    xmlToJsonEntries plainDoc =
      Except.ok [{ id := "a", term := "a", senses := [] }] ∧
    xmlToJsonEntries nsDoc = Except.ok [] := by
  exact ⟨by decide, by decide, by decide⟩

/-- C4 amended: namespace prefixes are ignored only in the markup
renderer's tag dispatch (`render_element` treats any tag like its
namespace-stripped form); the structural lookups of extraction match the
full qualified tag, so a glossary entry none of whose children bears the
exact tag `glossterm` falls back to its identifier even when a child's
namespace-stripped tag is `glossterm`. -/
theorem C4_amended (tg : String) (tx : Option String)
    (ab : List (String × String)) (ch : List Elem) (tl : Option String)
    (ge : Elem) (hch : ∀ c ∈ ge.children, c.tag ≠ "glossterm") :
    renderElement (.mk tg tx ab ch tl) =
      renderElement (.mk (localTag tg) tx ab ch tl) ∧
    (∃ ent, parseGlossentry ge = Except.ok ent ∧
      ent.term = attrGet ge "id" "") := by
  constructor
  · simp only [renderElement, localTag_idem]
  · have hfind : findChild ge "glossterm" = none := by
      rw [findChild, List.find?_eq_none]
      intro c hc
      simp [hch c hc]
    simp only [parseGlossentry, hfind]
    exact ⟨_, rfl, rfl⟩

/-- C4 witness: a namespaced emphasis element renders exactly like the
plain one, and a concrete entry whose headword child is namespaced falls
back to its identifier. -/
theorem C4_amended_witness :
    (renderElement (.mk "\x7bu\x7demphasis" (some "y") [] [] none) =
      renderElement (.mk "emphasis" (some "y") [] [] none)) ∧
    (∃ ent,
      parseGlossentry (.mk "glossentry" none [("id", "w")]
          [.mk "\x7bu\x7dglossterm" (some "t") [] [] none] none) =
        Except.ok ent ∧
      ent.term = attrGet (.mk "glossentry" none [("id", "w")]
          [.mk "\x7bu\x7dglossterm" (some "t") [] [] none] none) "id" "") := by
  have h := C4_amended "\x7bu\x7demphasis" (some "y") [] [] none
    (.mk "glossentry" none [("id", "w")]
      [.mk "\x7bu\x7dglossterm" (some "t") [] [] none] none)
    (by decide)
  refine ⟨?_, h.2⟩
  rw [h.1]
  have : localTag "\x7bu\x7demphasis" = "emphasis" := by decide
  rw [this]

/-! ### C7 — cache round-trip -/

theorem jsonToSense_roundtrip (s : Sense) : jsonToSense (senseToJson s) = some s := by
  obtain ⟨d, p, g⟩ := s
  cases p <;> cases g <;> rfl

theorem decodeAll_jsonToSense (l : List Sense) :
    decodeAll jsonToSense (l.map senseToJson) = some l := by
  induction l with
  | nil => rfl
  | cons s ss ih => simp [decodeAll, jsonToSense_roundtrip, ih]

theorem jsonToEntry_roundtrip (e : Entry) : jsonToEntry (entryToJson e) = some e := by
  obtain ⟨i, t, ss⟩ := e
  have hstep : jsonToEntry (entryToJson ⟨i, t, ss⟩) =
      decodeAll jsonToSense (ss.map senseToJson) >>= fun senses =>
        some { id := i, term := t, senses := senses } := rfl
  rw [hstep, decodeAll_jsonToSense]
  rfl

theorem decodeAll_jsonToEntry (l : List Entry) :
    decodeAll jsonToEntry (l.map entryToJson) = some l := by
  induction l with
  | nil => rfl
  | cons e es ih => simp [decodeAll, jsonToEntry_roundtrip, ih]

/-- C7: round-trip through the cache — for every source document, the
extracted Entry list, encoded to the JSON cache value and decoded back,
is structurally identical to the directly extracted list (the text layer of
the codec is the standard-library collaborator). -/
theorem C7_cache_roundtrip (root : Elem) (entries : List Entry)
    (_h : xmlToJsonEntries root = Except.ok entries) :
    jsonToEntries (entriesToJson entries) = some entries := by
  simp [jsonToEntries, entriesToJson, decodeAll_jsonToEntry]

/-- C7 witness: the round-trip at a concrete one-entry document. -/
theorem C7_cache_roundtrip_witness :
    jsonToEntries (entriesToJson [{ id := "a", term := "a", senses := [] }]) =
      some [{ id := "a", term := "a", senses := [] }] :=
  C7_cache_roundtrip
    (.mk "glossary" none [] [.mk "glossentry" none [("id", "a")] [] none] none)
    [{ id := "a", term := "a", senses := [] }] (by decide)

/-! ### C6 — the EntryNotFound exit contract -/

theorem randomChoice_cases {α : Type} (l : List α) (r : Nat) :
    randomChoice l r = Except.error PyErr.indexError ∨
      ∃ x, randomChoice l r = Except.ok x := by
  match l with
  | [] => exact Or.inl rfl
  | x :: xs => exact Or.inr ⟨_, rfl⟩

/-- `choose_entry` raises precisely the `KeyError` naming the query, and
does so exactly when the query is truthy and both tiers are empty. -/
theorem chooseEntry_keyError (entries : List Entry) (q : Option String)
    (r : Nat) (msg : String) :
    chooseEntry entries q r = Except.error (PyErr.keyError msg) ↔
      (truthy q = true ∧ exactMatches entries (pyLower (strOf q)) = [] ∧
       substrMatches entries (pyLower (strOf q)) = [] ∧
       msg = "No entry found for: " ++ strOf q) := by
  by_cases ht : truthy q = true
  · by_cases hx : exactMatches entries (pyLower (strOf q)) = []
    · by_cases hs : substrMatches entries (pyLower (strOf q)) = []
      · simp [chooseEntry, ht, hx, hs, eq_comm]
      · obtain ⟨e, he, _⟩ := randomChoice_mem _ r hs
        simp [chooseEntry, ht, hx, hs, he]
    · obtain ⟨e, he, _⟩ := randomChoice_mem _ r hx
      simp [chooseEntry, ht, hx, he]
  · have hrc := randomChoice_not_keyError entries r msg
    simp only [Bool.not_eq_true] at ht
    simp [chooseEntry, ht, hrc]

/-- `show_entry` surfaces a `KeyError` exactly when the cache loads and
`choose_entry` raises it. -/
theorem showEntry_keyError (fs : Fs) (showAll : Bool) (q : Option String)
    (r rs : Nat) (msg : String) :
    showEntry fs showAll q r rs = Except.error (PyErr.keyError msg) ↔
      ∃ entries, fs.json = some entries ∧
        chooseEntry entries q r = Except.error (PyErr.keyError msg) := by
  cases hj : fs.json with
  | none => simp [showEntry, hj]
  | some entries =>
      cases hc : chooseEntry entries q r with
      | error e => simp [showEntry, hj, hc]
      | ok entry =>
          by_cases hall : showAll
          · simp [showEntry, hj, hc, hall]
          · rcases randomChoice_cases entry.senses rs with hrc | ⟨x, hrc⟩ <;>
              simp [showEntry, hj, hc, hall, hrc]

/-- `cmd_random` exits with status 1 exactly when `show_entry` raised a
`KeyError`; every other exception propagates as `uncaught`. -/
theorem cmdRandom_exitOne (fs : Fs) (rebuild showAll : Bool) (q : Option String)
    (r rs : Nat) (msg : String) :
    cmdRandom fs rebuild showAll q r rs = RunResult.exitOne msg ↔
      ∃ fs', ensureJson fs rebuild = Except.ok fs' ∧
        showEntry fs' showAll q r rs = Except.error (PyErr.keyError msg) := by
  cases hens : ensureJson fs rebuild with
  | error e => simp [cmdRandom, hens]
  | ok fs' =>
      cases hse : showEntry fs' showAll q r rs with
      | ok entry => simp [cmdRandom, hens, hse]
      | error e => cases e <;> simp [cmdRandom, hens, hse, eq_comm]

/-- C6: entry selection fails exactly when both the exact tier and the
substring tier are empty for a truthy query; then, and only then,
`cmd_random` takes the defined non-zero exit path (`KeyError` message on
the error stream, `sys.exit(1)`), and the message names the query. -/
theorem C6_entry_not_found (fs : Fs) (rebuild showAll : Bool)
    (q : Option String) (r rs : Nat) :
    (∀ msg, cmdRandom fs rebuild showAll q r rs = RunResult.exitOne msg →
      msg = "No entry found for: " ++ strOf q) ∧
    ((∃ msg, cmdRandom fs rebuild showAll q r rs = RunResult.exitOne msg) ↔
      ∃ fs' entries, ensureJson fs rebuild = Except.ok fs' ∧
        fs'.json = some entries ∧ truthy q = true ∧
        exactMatches entries (pyLower (strOf q)) = [] ∧
        substrMatches entries (pyLower (strOf q)) = []) := by
  constructor
  · intro msg hmsg
    obtain ⟨fs', _, hse⟩ := (cmdRandom_exitOne fs rebuild showAll q r rs msg).mp hmsg
    obtain ⟨entries, _, hce⟩ := (showEntry_keyError fs' showAll q r rs msg).mp hse
    exact ((chooseEntry_keyError entries q r msg).mp hce).2.2.2
  · constructor
    · rintro ⟨msg, hmsg⟩
      obtain ⟨fs', hens, hse⟩ := (cmdRandom_exitOne fs rebuild showAll q r rs msg).mp hmsg
      obtain ⟨entries, hj, hce⟩ := (showEntry_keyError fs' showAll q r rs msg).mp hse
      obtain ⟨h1, h2, h3, _⟩ := (chooseEntry_keyError entries q r msg).mp hce
      exact ⟨fs', entries, hens, hj, h1, h2, h3⟩
    · rintro ⟨fs', entries, hens, hj, h1, h2, h3⟩
      refine ⟨"No entry found for: " ++ strOf q, ?_⟩
      rw [cmdRandom_exitOne]
      refine ⟨fs', hens, ?_⟩
      rw [showEntry_keyError]
      refine ⟨entries, hj, ?_⟩
      rw [chooseEntry_keyError]
      exact ⟨h1, h2, h3, rfl⟩

/-- C6 witness: with a populated cache and the query `"zzz"` matching
nothing, `cmd_random` exits with status 1 and the message names the query. -/
theorem C6_entry_not_found_witness :
    cmdRandom { xml := none, json := some [{ id := "x", term := "t", senses := [] }] }
        false false (some "zzz") 0 0 =
      RunResult.exitOne ("No entry found for: " ++ strOf (some "zzz")) := by
  have h := C6_entry_not_found
    { xml := none, json := some [{ id := "x", term := "t", senses := [] }] }
    false false (some "zzz") 0 0
  obtain ⟨msg, hmsg⟩ := h.2.mpr
    ⟨{ xml := none, json := some [{ id := "x", term := "t", senses := [] }] },
     [{ id := "x", term := "t", senses := [] }],
     rfl, rfl, by decide, by decide, by decide⟩
  have hname := h.1 msg hmsg
  rw [hname] at hmsg
  exact hmsg

/-! ### C1 — the renderer loses, duplicates and reorders no text

Stripping the ANSI style markers from `render_element`'s output recovers the
concatenation of all text and tail fragments in document order.  The
development works with `stripAnsiList` on character lists; `CompStrip`
("strip distributes over appending this list") is the key invariant of
renderer output. -/

theorem strOf_falsy {tx : Option String} (h : truthy tx = false) : strOf tx = "" := by
  cases tx with
  | none => rfl
  | some s =>
      simp only [truthy, decide_eq_false_iff_not, not_not] at h
      simpa [strOf] using h

theorem strJoin_cons (p : String) (ps : List String) :
    strJoin (p :: ps) = p ++ strJoin ps := rfl

theorem strJoin_optHead (tx : Option String) (ps : List String) :
    strJoin ((if truthy tx then [strOf tx] else []) ++ ps) = strOf tx ++ strJoin ps := by
  cases htx : truthy tx with
  | true => rfl
  | false => simp [strOf_falsy htx]

/-- Stripping distributes over appending this character list.  Renderer
output always satisfies this: escape sequences in it are complete markers. -/
def CompStrip (a : List Char) : Prop :=
  ∀ b, stripAnsiList (a ++ b) false = stripAnsiList a false ++ stripAnsiList b false

/-- Prepending this character list is invisible to stripping. -/
def MarkerSkip (m : List Char) : Prop :=
  ∀ b, stripAnsiList (m ++ b) false = stripAnsiList b false

theorem stripAnsiList_noesc {a : List Char} (h : '\x1b' ∉ a) (b : List Char) :
    stripAnsiList (a ++ b) false = a ++ stripAnsiList b false := by
  induction a with
  | nil => rfl
  | cons c cs ih =>
      have hc : ¬(c = '\x1b') := fun hc => h (hc ▸ List.mem_cons_self c cs)
      have hcs : '\x1b' ∉ cs := fun hm => h (List.mem_cons_of_mem _ hm)
      simp [stripAnsiList, hc, ih hcs]

theorem compStrip_noesc {a : List Char} (h : '\x1b' ∉ a) :
    CompStrip a ∧ stripAnsiList a false = a := by
  have hid : stripAnsiList a false = a := by
    have := stripAnsiList_noesc h []
    simpa [stripAnsiList] using this
  exact ⟨fun b => by rw [stripAnsiList_noesc h b, hid], hid⟩

theorem compStrip_append {a b : List Char} (ha : CompStrip a) (hb : CompStrip b) :
    CompStrip (a ++ b) := by
  intro c
  calc stripAnsiList ((a ++ b) ++ c) false
      = stripAnsiList (a ++ (b ++ c)) false := by rw [List.append_assoc]
    _ = stripAnsiList a false ++ stripAnsiList (b ++ c) false := ha _
    _ = stripAnsiList a false ++ (stripAnsiList b false ++ stripAnsiList c false) := by
          rw [hb]
    _ = (stripAnsiList a false ++ stripAnsiList b false) ++ stripAnsiList c false := by
          rw [List.append_assoc]
    _ = stripAnsiList (a ++ b) false ++ stripAnsiList c false := by rw [ha]

theorem markerSkip_emph : MarkerSkip COLOR_EMPH.data := by
  intro b
  show stripAnsiList ('\x1b' :: '[' :: '3' :: '6' :: 'm' :: b) false =
    stripAnsiList b false
  simp [stripAnsiList]

theorem markerSkip_ref : MarkerSkip COLOR_REF.data := by
  intro b
  show stripAnsiList ('\x1b' :: '[' :: '3' :: '5' :: 'm' :: b) false =
    stripAnsiList b false
  simp [stripAnsiList]

theorem markerSkip_reset : MarkerSkip COLOR_RESET.data := by
  intro b
  show stripAnsiList ('\x1b' :: '[' :: '0' :: 'm' :: b) false = stripAnsiList b false
  simp [stripAnsiList]

theorem strip_wrap {c1 c2 m : List Char} (h1 : MarkerSkip c1) (h2 : MarkerSkip c2)
    (hm : CompStrip m) :
    CompStrip (c1 ++ m ++ c2) ∧
    stripAnsiList (c1 ++ m ++ c2) false = stripAnsiList m false := by
  have key : ∀ b, stripAnsiList ((c1 ++ m ++ c2) ++ b) false =
      stripAnsiList m false ++ stripAnsiList b false := by
    intro b
    rw [List.append_assoc, List.append_assoc, h1, hm, h2]
  have keyval : stripAnsiList (c1 ++ m ++ c2) false = stripAnsiList m false := by
    have h0 := key []
    simpa [stripAnsiList] using h0
  exact ⟨fun b => by rw [key b, keyval], keyval⟩

/-- `_style` preserves both the `CompStrip` invariant and the stripped text. -/
theorem style_strip {s color : String} (hcolor : MarkerSkip color.data)
    (hcomp : CompStrip s.data) :
    CompStrip (style s color).data ∧ stripAnsi (style s color) = stripAnsi s := by
  rw [style]
  by_cases hs : s ≠ ""
  · rw [if_pos hs]
    have hdata : (color ++ s ++ COLOR_RESET).data =
        color.data ++ s.data ++ COLOR_RESET.data := by
      simp [String.data_append]
    obtain ⟨hcompW, hvalW⟩ := strip_wrap hcolor markerSkip_reset hcomp
    constructor
    · rw [hdata]; exact hcompW
    · apply String.ext
      show stripAnsiList (color ++ s ++ COLOR_RESET).data false =
        stripAnsiList s.data false
      rw [hdata]; exact hvalW
  · rw [if_neg hs]; exact ⟨hcomp, rfl⟩

theorem noEsc_parts {c : Elem} (h : noEsc c = true) :
    '\x1b' ∉ (strOf c.text).data ∧ '\x1b' ∉ (strOf c.tail).data ∧
    noEscList c.children = true := by
  obtain ⟨tg, tx, ab, ch, tl⟩ := c
  simp only [noEsc, Bool.and_eq_true, Bool.not_eq_true', decide_eq_false_iff_not] at h
  exact ⟨h.1.1, h.1.2, h.2⟩

/-- The child-list part of the renderer: stripping recovers each child's
flattened text followed by its tail text, in order. -/
theorem children_strip (cs : List Elem)
    (IH : ∀ c ∈ cs, noEsc c = true →
      CompStrip (renderElement c).data ∧ stripAnsi (renderElement c) = flattenText c)
    (h : noEscList cs = true) :
    CompStrip (strJoin (renderChildren cs)).data ∧
    stripAnsi (strJoin (renderChildren cs)) = flattenChildren cs := by
  induction cs with
  | nil => exact ⟨fun b => rfl, rfl⟩
  | cons c cs ih =>
      simp only [noEscList, Bool.and_eq_true] at h
      obtain ⟨hc, hcs⟩ := h
      obtain ⟨hcComp, hcVal⟩ := IH c (List.mem_cons_self c cs) hc
      obtain ⟨hrComp, hrVal⟩ :=
        ih (fun c' hc' h' => IH c' (List.mem_cons_of_mem _ hc') h') hcs
      have htl : '\x1b' ∉ (strOf c.tail).data := (noEsc_parts hc).2.1
      obtain ⟨htlComp, htlId⟩ := compStrip_noesc htl
      have hsplit : strJoin (renderChildren (c :: cs)) =
          renderElement c ++ (strOf c.tail ++ strJoin (renderChildren cs)) := by
        show strJoin (([renderElement c] ++
            (if truthy c.tail then [strOf c.tail] else [])) ++ renderChildren cs) = _
        rw [List.append_assoc, List.singleton_append, strJoin_cons, strJoin_optHead]
      rw [hsplit]
      constructor
      · show CompStrip ((renderElement c ++ (strOf c.tail ++ strJoin (renderChildren cs)))).data
        rw [String.data_append, String.data_append]
        exact compStrip_append hcComp (compStrip_append htlComp hrComp)
      · apply String.ext
        show stripAnsiList (renderElement c ++
            (strOf c.tail ++ strJoin (renderChildren cs))).data false =
          (flattenChildren (c :: cs)).data
        rw [String.data_append, String.data_append]
        rw [hcComp ((strOf c.tail).data ++ (strJoin (renderChildren cs)).data)]
        rw [htlComp ((strJoin (renderChildren cs)).data)]
        have h1 : stripAnsiList (renderElement c).data false = (flattenText c).data :=
          congrArg String.data hcVal
        have h2 : stripAnsiList (strJoin (renderChildren cs)).data false =
            (flattenChildren cs).data := congrArg String.data hrVal
        rw [h1, htlId, h2]
        simp [flattenChildren, String.data_append, List.append_assoc]

/-- Stripping the renderer's output over a subtree with no escape character
in its text yields the flattened document-order text. -/
theorem render_strip : ∀ (e : Elem), noEsc e = true →
    CompStrip (renderElement e).data ∧ stripAnsi (renderElement e) = flattenText e
  | .mk tg tx ab ch tl => fun h => by
      have hIH : ∀ c ∈ ch, noEsc c = true →
          CompStrip (renderElement c).data ∧
          stripAnsi (renderElement c) = flattenText c :=
        fun c hc hnc => render_strip c hnc
      have hparts := noEsc_parts h
      simp only [Elem.text, Elem.tail, Elem.children] at hparts
      obtain ⟨htx, _, hch⟩ := hparts
      obtain ⟨hcComp, hcVal⟩ := children_strip ch hIH hch
      obtain ⟨htxComp, htxId⟩ := compStrip_noesc htx
      have hcombEq : strJoin ((if truthy tx then [strOf tx] else [])
          ++ renderChildren ch) = strOf tx ++ strJoin (renderChildren ch) :=
        strJoin_optHead tx (renderChildren ch)
      have hbaseComp : CompStrip (strJoin ((if truthy tx then [strOf tx] else [])
          ++ renderChildren ch)).data := by
        rw [hcombEq, String.data_append]
        exact compStrip_append htxComp hcComp
      have hbaseVal : stripAnsi (strJoin ((if truthy tx then [strOf tx] else [])
          ++ renderChildren ch)) = flattenText (.mk tg tx ab ch tl) := by
        apply String.ext
        show stripAnsiList (strJoin ((if truthy tx then [strOf tx] else [])
            ++ renderChildren ch)).data false = (flattenText (.mk tg tx ab ch tl)).data
        rw [hcombEq, String.data_append, compStrip_noesc htx |>.1]
        have h2 : stripAnsiList (strJoin (renderChildren ch)).data false =
            (flattenChildren ch).data := congrArg String.data hcVal
        rw [htxId, h2]
        show _ = (strOf tx ++ flattenChildren ch).data
        rw [String.data_append]
      show CompStrip (renderElement (.mk tg tx ab ch tl)).data ∧
        stripAnsi (renderElement (.mk tg tx ab ch tl)) = flattenText (.mk tg tx ab ch tl)
      rw [renderElement]
      by_cases h1 : localTag tg = "emphasis"
      · rw [if_pos h1]
        obtain ⟨hco, hva⟩ := style_strip markerSkip_emph hbaseComp
        exact ⟨hco, by rw [hva, hbaseVal]⟩
      · rw [if_neg h1]
        by_cases h2 : refTags.contains (localTag tg) = true
        · rw [if_pos h2]
          obtain ⟨hco, hva⟩ := style_strip markerSkip_ref hbaseComp
          exact ⟨hco, by rw [hva, hbaseVal]⟩
        · rw [if_neg h2]
          exact ⟨hbaseComp, hbaseVal⟩
termination_by e => sizeOf e
decreasing_by
  have hlt := List.sizeOf_lt_of_mem hc
  simp only [Elem.mk.sizeOf_spec]
  omega

/-- C1: for every markup subtree whose text carries no raw escape
character, the renderer's output with the style markers stripped equals the
concatenation of the node's own text, each child's recursively rendered
output and each child's tail text, in document order (the flattened text);
absent text fields render exactly like empty ones (never a literal
`"None"`). -/
theorem C1_renderer_text_fidelity (e : Elem) (h : noEsc e = true) :
    stripAnsi (renderElement e) = flattenText e ∧
    (∀ tg ab ch tl, renderElement (.mk tg none ab ch tl) =
      renderElement (.mk tg (some "") ab ch tl) ∧
      flattenText (.mk tg none ab ch tl) = flattenText (.mk tg (some "") ab ch tl)) := by
  refine ⟨(render_strip e h).2, fun tg ab ch tl => ⟨rfl, rfl⟩⟩

/-- C1 witness: a concrete paragraph with an emphasis child — stripping the
markers recovers the full text `"a b c"`. -/
theorem C1_renderer_text_fidelity_witness :
    stripAnsi (renderElement (.mk "para" (some "a ") []
        [.mk "emphasis" (some "b") [] [] (some " c")] none)) =
      flattenText (.mk "para" (some "a ") []
        [.mk "emphasis" (some "b") [] [] (some " c")] none) ∧
    flattenText (.mk "para" (some "a ") []
        [.mk "emphasis" (some "b") [] [] (some " c")] none) = "a b c" :=
  ⟨(C1_renderer_text_fidelity (.mk "para" (some "a ") []
      [.mk "emphasis" (some "b") [] [] (some " c")] none) (by decide)).1,
   by decide⟩

/-! ### C9 — paragraph whitespace normalization

The specification-side description: replace every maximal whitespace run by
one space, with no leading or trailing whitespace.  We prove
`" ".join(s.split())` equal to that description. -/

/-- Specification-side: replace every maximal run of whitespace by a single
space. -/
def collapseRuns : List Char → List Char
  | [] => []
  | c :: cs =>
      if pyIsSpace c then ' ' :: collapseRuns (cs.dropWhile pyIsSpace)
      else c :: collapseRuns cs
termination_by l => l.length
decreasing_by
  · exact Nat.lt_succ_of_le (List.dropWhile_sublist _).length_le
  · exact Nat.lt_succ_self _

/-- Specification-side: remove trailing whitespace. -/
def trimEnd (l : List Char) : List Char :=
  (l.reverse.dropWhile pyIsSpace).reverse

/-- Specification-side normalization: collapse maximal whitespace runs to
single spaces and drop leading and trailing whitespace. -/
def specCollapse (l : List Char) : List Char :=
  trimEnd ((collapseRuns l).dropWhile pyIsSpace)

theorem collapseRuns_cons_space {c : Char} (cs : List Char) (h : pyIsSpace c = true) :
    collapseRuns (c :: cs) = ' ' :: collapseRuns (cs.dropWhile pyIsSpace) := by
  simp [collapseRuns, h]

theorem collapseRuns_cons_nonspace {c : Char} (cs : List Char) (h : pyIsSpace c = false) :
    collapseRuns (c :: cs) = c :: collapseRuns cs := by
  simp [collapseRuns, h]

theorem collapseRuns_word {w : List Char} (r : List Char)
    (hw : ∀ x ∈ w, pyIsSpace x = false) :
    collapseRuns (w ++ r) = w ++ collapseRuns r := by
  induction w with
  | nil => rfl
  | cons c cs ih =>
      rw [List.cons_append,
        collapseRuns_cons_nonspace _ (hw c (List.mem_cons_self c cs)),
        ih (fun x hx => hw x (List.mem_cons_of_mem _ hx))]
      rfl

theorem pySplit_cons_space {c : Char} (cs : List Char) (h : pyIsSpace c = true) :
    pySplit (c :: cs) = pySplit cs := by
  simp [pySplit, pySplitAux, h]

theorem pySplitAux_acc (cs : List Char) (a : Char) (as : List Char) :
    pySplitAux cs (a :: as) =
      ((a :: as).reverse ++ cs.takeWhile (fun d => !pyIsSpace d))
        :: pySplit (cs.dropWhile (fun d => !pyIsSpace d)) := by
  induction cs generalizing a as with
  | nil => simp [pySplitAux, pySplit, pySplitAux]
  | cons c cs ih =>
      by_cases h : pyIsSpace c = true
      · rw [List.takeWhile_cons_of_neg (by simp [h]),
          List.dropWhile_cons_of_neg (by simp [h])]
        have hstep : pySplitAux (c :: cs) (a :: as) =
            (a :: as).reverse :: pySplitAux cs [] := by
          simp [pySplitAux, h]
        rw [hstep, show pySplitAux cs [] = pySplit cs from rfl,
          ← pySplit_cons_space cs h]
        simp
      · have hb : pyIsSpace c = false := by simpa using h
        rw [List.takeWhile_cons_of_pos (by simp [hb]),
          List.dropWhile_cons_of_pos (by simp [hb])]
        have hstep : pySplitAux (c :: cs) (a :: as) =
            pySplitAux cs (c :: a :: as) := by
          simp [pySplitAux, hb]
        rw [hstep, ih]
        simp

theorem pySplit_cons_nonspace {c : Char} (cs : List Char) (h : pyIsSpace c = false) :
    pySplit (c :: cs) =
      (c :: cs.takeWhile (fun d => !pyIsSpace d))
        :: pySplit (cs.dropWhile (fun d => !pyIsSpace d)) := by
  show pySplitAux (c :: cs) [] = _
  rw [show pySplitAux (c :: cs) [] = pySplitAux cs [c] by simp [pySplitAux, h]]
  rw [pySplitAux_acc]
  simp

theorem pySplit_allspace {l : List Char} (h : ∀ x ∈ l, pyIsSpace x = true) :
    pySplit l = [] := by
  induction l with
  | nil => rfl
  | cons c cs ih =>
      rw [pySplit_cons_space cs (h c (List.mem_cons_self c cs))]
      exact ih (fun x hx => h x (List.mem_cons_of_mem _ hx))

theorem pySplit_dropWhile (l : List Char) :
    pySplit (l.dropWhile pyIsSpace) = pySplit l := by
  induction l with
  | nil => rfl
  | cons c cs ih =>
      by_cases h : pyIsSpace c = true
      · rw [List.dropWhile_cons_of_pos h, ih, pySplit_cons_space cs h]
      · rw [List.dropWhile_cons_of_neg h]

theorem trimEnd_all_nonspace {w : List Char} (hw : ∀ x ∈ w, pyIsSpace x = false) :
    trimEnd w = w := by
  rw [trimEnd]
  cases hrev : w.reverse with
  | nil =>
      have : w = [] := by simpa using congrArg List.reverse hrev
      simp [this]
  | cons h t =>
      have hh : h ∈ w := by
        rw [← List.mem_reverse, hrev]
        exact List.mem_cons_self h t
      rw [List.dropWhile_cons_of_neg (by simp [hw h hh]), ← hrev, List.reverse_reverse]

theorem trimEnd_append_space (a : List Char) : trimEnd (a ++ [' ']) = trimEnd a := by
  rw [trimEnd, trimEnd, List.reverse_append]
  show ((' ' :: a.reverse).dropWhile pyIsSpace).reverse = _
  rw [List.dropWhile_cons_of_pos (by decide)]

theorem trimEnd_append {a y : List Char} (hy : y.reverse.dropWhile pyIsSpace ≠ []) :
    trimEnd (a ++ y) = a ++ trimEnd y := by
  rw [trimEnd, trimEnd, List.reverse_append, List.dropWhile_append]
  rw [if_neg (by simpa using hy)]
  rw [List.reverse_append, List.reverse_reverse]

theorem dropWhile_collapseRuns (l : List Char) :
    (collapseRuns l).dropWhile pyIsSpace =
      (collapseRuns (l.dropWhile pyIsSpace)).dropWhile pyIsSpace := by
  cases l with
  | nil => rfl
  | cons c cs =>
      by_cases h : pyIsSpace c = true
      · rw [collapseRuns_cons_space cs h, List.dropWhile_cons_of_pos h,
          List.dropWhile_cons_of_pos (show pyIsSpace ' ' = true by decide)]
      · rw [List.dropWhile_cons_of_neg h]

theorem specCollapse_dropWhile (l : List Char) :
    specCollapse (l.dropWhile pyIsSpace) = specCollapse l := by
  rw [specCollapse, specCollapse]
  conv_rhs => rw [dropWhile_collapseRuns l]

theorem specCollapse_cons_space {c : Char} (cs : List Char) (h : pyIsSpace c = true) :
    specCollapse (c :: cs) = specCollapse cs := by
  rw [← specCollapse_dropWhile (c :: cs), List.dropWhile_cons_of_pos h,
    specCollapse_dropWhile cs]

theorem joinSp_cons_ne (w : List Char) {ws : List (List Char)} (h : ws ≠ []) :
    joinSp (w :: ws) = w ++ ' ' :: joinSp ws := by
  cases ws with
  | nil => exact absurd rfl h
  | cons w2 ws2 => rfl

theorem collapseRuns_nil : collapseRuns [] = [] := by
  simp [collapseRuns]

theorem dropWhile_eq_cons_head {α : Type} (p : α → Bool) (l : List α) (x : α)
    (xs : List α) (h : l.dropWhile p = x :: xs) : p x = false := by
  induction l with
  | nil => cases h
  | cons a as ih =>
      by_cases hp : p a = true
      · rw [List.dropWhile_cons_of_pos hp] at h
        exact ih h
      · rw [List.dropWhile_cons_of_neg hp] at h
        injection h with h1 h2
        subst h1
        simpa using hp

/-- `" ".join(s.split())` equals the specification-side normalization:
every maximal whitespace run becomes one space, and no leading or trailing
whitespace remains. -/
theorem joinSp_pySplit : ∀ l : List Char, joinSp (pySplit l) = specCollapse l
  | [] => by
      show joinSp (pySplitAux [] []) = _
      simp [pySplitAux, specCollapse, collapseRuns, trimEnd, joinSp]
  | c :: cs => by
      by_cases hsp : pyIsSpace c = true
      · rw [pySplit_cons_space cs hsp, joinSp_pySplit cs, specCollapse_cons_space cs hsp]
      · have hc : pyIsSpace c = false := by simpa using hsp
        set w := cs.takeWhile (fun d => !pyIsSpace d) with hw
        set r := cs.dropWhile (fun d => !pyIsSpace d) with hr
        have hcw : ∀ x ∈ c :: w, pyIsSpace x = false := by
          intro x hx
          rcases List.mem_cons.mp hx with hx | hx
          · rw [hx]; exact hc
          · have := List.mem_takeWhile_imp hx
            simpa using this
        have hsplitcs : w ++ r = cs := by
          rw [hw, hr]
          exact List.takeWhile_append_dropWhile _ _
        have hRHS : specCollapse (c :: cs) = trimEnd ((c :: w) ++ collapseRuns r) := by
          rw [specCollapse]
          have h1 : (c :: cs) = (c :: w) ++ r := by
            rw [List.cons_append, hsplitcs]
          rw [h1, collapseRuns_word r hcw, List.cons_append,
            List.dropWhile_cons_of_neg (by simp [hc]), ← List.cons_append]
        rw [pySplit_cons_nonspace cs hc, ← hw, ← hr, hRHS]
        cases hr' : r.dropWhile pyIsSpace with
        | nil =>
            have hallsp : ∀ x ∈ r, pyIsSpace x = true :=
              List.dropWhile_eq_nil_iff.mp hr'
            rw [pySplit_allspace hallsp]
            show (c :: w) = trimEnd ((c :: w) ++ collapseRuns r)
            cases hrc : r with
            | nil =>
                rw [collapseRuns_nil, List.append_nil, trimEnd_all_nonspace hcw]
            | cons s r2 =>
                have hs : pyIsSpace s = true := hallsp s (hrc ▸ List.mem_cons_self s r2)
                have hr2 : r2.dropWhile pyIsSpace = [] := by
                  apply List.dropWhile_eq_nil_iff.mpr
                  intro x hx
                  exact hallsp x (hrc ▸ List.mem_cons_of_mem _ hx)
                rw [collapseRuns_cons_space r2 hs, hr2, collapseRuns_nil,
                  trimEnd_append_space, trimEnd_all_nonspace hcw]
        | cons d r2 =>
            have hd : pyIsSpace d = false :=
              dropWhile_eq_cons_head pyIsSpace r d r2 hr'
            have hrne : r ≠ [] := by
              intro hempty
              rw [hempty] at hr'
              exact List.noConfusion hr'
            obtain ⟨s, r3, hrc⟩ := List.exists_cons_of_ne_nil hrne
            have hcs_eq : cs.dropWhile (fun d => !pyIsSpace d) = s :: r3 := by
              rw [← hr]
              exact hrc
            have hs : pyIsSpace s = true := by
              have hs0 := dropWhile_eq_cons_head _ cs s r3 hcs_eq
              simpa using hs0
            have hCRr : collapseRuns r = ' ' :: collapseRuns (r.dropWhile pyIsSpace) := by
              rw [hrc, collapseRuns_cons_space r3 hs, ← hrc]
              rw [show r.dropWhile pyIsSpace = r3.dropWhile pyIsSpace by
                rw [hrc, List.dropWhile_cons_of_pos hs]]
            have hCRr' : collapseRuns (r.dropWhile pyIsSpace) =
                d :: collapseRuns r2 := by
              rw [hr', collapseRuns_cons_nonspace r2 hd]
            have hlen : r.length < (c :: cs).length := by
              have h1 : r.length ≤ cs.length := by
                rw [hr]
                exact (List.dropWhile_sublist _).length_le
              exact Nat.lt_succ_of_le h1
            have hrec : joinSp (pySplit r) = specCollapse r := joinSp_pySplit r
            have hpsr : pySplit r ≠ [] := by
              rw [← pySplit_dropWhile r, hr', pySplit_cons_nonspace r2 hd]
              simp
            rw [joinSp_cons_ne _ hpsr, hrec]
            have hscr : specCollapse r = trimEnd (collapseRuns (r.dropWhile pyIsSpace)) := by
              rw [← specCollapse_dropWhile r, specCollapse, hCRr',
                List.dropWhile_cons_of_neg (by simp [hd]), ← hCRr']
            have hmem : d ∈ ' ' :: collapseRuns (r.dropWhile pyIsSpace) := by
              rw [hCRr']
              exact List.mem_cons_of_mem _ (List.mem_cons_self d _)
            have hne2 : (' ' :: collapseRuns (r.dropWhile pyIsSpace)).reverse.dropWhile
                pyIsSpace ≠ [] := by
              intro hnil
              have hall := List.dropWhile_eq_nil_iff.mp hnil
              have := hall d (by rw [List.mem_reverse]; exact hmem)
              rw [hd] at this
              exact Bool.noConfusion this
            rw [hCRr, trimEnd_append hne2]
            have htrim : trimEnd (' ' :: collapseRuns (r.dropWhile pyIsSpace)) =
                ' ' :: trimEnd (collapseRuns (r.dropWhile pyIsSpace)) := by
              have hne3 : (collapseRuns (r.dropWhile pyIsSpace)).reverse.dropWhile
                  pyIsSpace ≠ [] := by
                intro hnil
                have hall := List.dropWhile_eq_nil_iff.mp hnil
                have hmem2 : d ∈ collapseRuns (r.dropWhile pyIsSpace) := by
                  rw [hCRr']
                  exact List.mem_cons_self d _
                have := hall d (by rw [List.mem_reverse]; exact hmem2)
                rw [hd] at this
                exact Bool.noConfusion this
              have := trimEnd_append (a := [' ']) hne3
              simpa using this
            rw [htrim, hscr]
termination_by l => l.length

/-- C9: for every paragraph node, `render_paragraph` equals the
markup-rendered combined string with every maximal whitespace run replaced
by a single space and no leading or trailing whitespace; the styling
markers survive untouched, and the concrete input `"a\n\nb   c"` renders
to `"a b c"`. -/
theorem C9_paragraph_normalization :
    (∀ p : Elem, renderParagraph p = ⟨specCollapse (renderCombined p).data⟩) ∧
    renderParagraph (.mk "para" (some "a\n\nb   c") [] [] none) = "a b c" ∧
    renderParagraph (.mk "para" (some " x \n") []
        [.mk "emphasis" (some "y") [] [] (some "  z ")] none) =
      "x \x1b[36my\x1b[0m z" := by
  refine ⟨fun p => ?_, by decide, by decide⟩
  rw [renderParagraph, pyNormalizeWs]
  exact congrArg String.mk (joinSp_pySplit (renderCombined p).data)

end Jargon
